import Mathlib

/-!
Verification of the connectome preprocessing and analysis pipeline.

The repository's scripts operate on square weight matrices loaded from CSV
files.  We embed the numeric core in exact rational arithmetic: a matrix is a
function `Fin n → Fin n → ℚ`.  Library calls (numpy, pandas, networkx) are
modelled by their documented semantics on exact numbers.
-/

namespace ConnectomeMS

/-! ## Definitions -/

/-- Square rational matrix, the exact-arithmetic model of a numpy 2-d array. -/
abbrev Mat (n : ℕ) : Type := Fin n → Fin n → ℚ

/-- Model of `W = 0.5 * (W + W.T)` (symmetrization step of the loaders). -/
def symmetrize {n : ℕ} (A : Mat n) : Mat n := fun i j => (A i j + A j i) / 2

/-- Model of `np.fill_diagonal(W, 0.0)`. -/
def zeroDiag {n : ℕ} (A : Mat n) : Mat n := fun i j => if i = j then 0 else A i j

/-- Model of `W[W < 0] = 0.0` (clamping negative entries). -/
def clampNeg {n : ℕ} (A : Mat n) : Mat n := fun i j => if A i j < 0 then 0 else A i j

/-- Model of `np.nan_to_num(W, nan=0.0, posinf=0.0, neginf=0.0)`.  In the exact
rational model every entry is already finite, so this step is the identity. -/
def nanToNum {n : ℕ} (A : Mat n) : Mat n := A

/-- Embedding of `load_and_clean_matrix` from `global_efficiency.py` applied to
the raw matrix read from the CSV: symmetrize, zero the diagonal, clamp
negatives. -/
def load_and_clean_matrix {n : ℕ} (A : Mat n) : Mat n := clampNeg (zeroDiag (symmetrize A))

/-- Embedding of `load_W_csv` from `modularity.py`: symmetrize, zero the
diagonal, clamp negatives, then `nan_to_num` (identity on exact rationals). -/
def load_W_csv {n : ℕ} (A : Mat n) : Mat n := nanToNum (clampNeg (zeroDiag (symmetrize A)))

/-- Embedding of `load_and_clean_W` from `characteristic_path_lengh.py`; the
same three cleaning steps as `load_and_clean_matrix`. -/
def load_and_clean_W {n : ℕ} (A : Mat n) : Mat n := clampNeg (zeroDiag (symmetrize A))

/-- Cleanliness predicate used throughout: symmetric, zero diagonal,
non-negative entries. -/
def IsClean {n : ℕ} (W : Mat n) : Prop :=
  (∀ i j, W i j = W j i) ∧ (∀ i, W i i = 0) ∧ (∀ i j, 0 ≤ W i j)

instance {n : ℕ} (W : Mat n) : Decidable (IsClean W) := by
  unfold IsClean; infer_instance

/-! ### infer_group (C9)

The scripts infer the subject group from the subject identifier with
`subj.split("_", 1)[1][0].upper()`: the first character after the first
underscore, uppercased; `"control"` for `C`, `"patient"` for `P`, `None`
otherwise, and `None` whenever the indexing raises (no underscore, or nothing
after it).  Strings are modelled as lists of characters. -/

/-- Content after the first underscore: model of `s.split("_", 1)[1]`, `none`
when there is no underscore (the `[1]` indexing raises). -/
def afterUnderscore : List Char → Option (List Char)
  | [] => none
  | c :: rest => if c = '_' then some rest else afterUnderscore rest

/-- ASCII model of Python `str.upper()` on a single character. -/
def pyUpper (c : Char) : Char :=
  if 'a' ≤ c ∧ c ≤ 'z' then Char.ofNat (c.toNat - 32) else c

/-- Embedding of `infer_group` (identical in all five scripts). -/
def infer_group (s : List Char) : Option String :=
  match afterUnderscore s with
  | none => none
  | some [] => none
  | some (c :: _) =>
      if pyUpper c = 'C' then some "control"
      else if pyUpper c = 'P' then some "patient"
      else none

/-! ### Weight-to-length conversion (C7)

`characteristic_path_length_weighted` builds the length matrix with
`np.where(W > 0, 1.0 / W, np.inf)`.  Extended non-negative lengths are
modelled by `WithTop ℚ`, with `⊤` standing for `np.inf`. -/

/-- Embedding of the length-matrix construction
`L = np.where(W > 0, 1.0 / W, np.inf)` from
`characteristic_path_length_weighted`. -/
def lengthMatrix {n : ℕ} (W : Mat n) : Fin n → Fin n → WithTop ℚ :=
  fun i j => if 0 < W i j then ((1 / W i j : ℚ) : WithTop ℚ) else ⊤

/-- Concrete clean 2×2 matrix with off-diagonal weight 2, used by witnesses. -/
def twoMat : Mat 2 := fun i j => if i = j then 0 else 2

/-! ### maybe_normalize (C10)

Every script defines `maybe_normalize(W, enable=True)`: compute
`m = np.max(W)` and return `W / m` when `m > 0`, otherwise `W` unchanged.
`np.max` requires a non-empty array, so the model works over matrices of
positive size. -/

/-- Model of `np.max(W)` over a non-empty square matrix. -/
def matMax {n : ℕ} (W : Mat (n + 1)) : ℚ :=
  Finset.univ.sup' Finset.univ_nonempty (fun p : Fin (n + 1) × Fin (n + 1) => W p.1 p.2)

/-- Embedding of `maybe_normalize` (identical in `modularity.py`,
`node_strength.py` and `clustering_coefficient.py`). -/
def maybe_normalize {n : ℕ} (W : Mat (n + 1)) (enable : Bool) : Mat (n + 1) :=
  if enable then (if 0 < matMax W then fun i j => W i j / matMax W else W) else W

/-! ### Batch driver (C5)

Model of the per-file main loop shared by the metric scripts: iterate over the
discovered file names, skip names that do not match the connectome pattern
(`continue`), compute the metric inside `try/except` recording `NaN` on
failure, and append one row per matching file.  The filename pattern, group
inference and metric computation are parameters; the metric returns
`Except String ℚ`, an exception being the `.error` case, and a recorded value
of `none` models `NaN`. -/

/-- One row of the accumulated output table. -/
structure MetricRow where
  subject : String
  method : String
  group : Option String
  value : Option ℚ
  fname : String
deriving DecidableEq

/-- Embedding of the main loop: `for fname in files: m = FILE_RE.match(fname);
if not m: continue; ...; try: v = metric(...) except: v = NaN;
rows.append(...)`. -/
def buildRows (matchFn : String → Option (String × String))
    (inferG : String → Option String) (metric : String → Except String ℚ)
    (files : List String) : List MetricRow :=
  files.foldl
    (fun rows fname =>
      match matchFn fname with
      | none => rows
      | some (subj, meth) =>
          rows ++ [{ subject := subj, method := meth, group := inferG subj,
                     value := match metric fname with
                       | .ok v => some v
                       | .error _ => none,
                     fname := fname }])
    []

/-- Row built for a single matching file. -/
def rowFor (inferG : String → Option String) (metric : String → Except String ℚ)
    (fname : String) (sm : String × String) : MetricRow :=
  { subject := sm.1, method := sm.2, group := inferG sm.1,
    value := match metric fname with
      | .ok v => some v
      | .error _ => none,
    fname := fname }

/-- Concrete match function for the C5 witness. -/
def wMatchFn : String → Option (String × String) :=
  fun f => if f = "INsIDER_C1_ACT.csv" then some ("INsIDER_C1", "ACT") else none

/-- Concrete group inference for the C5 witness. -/
def wInferG : String → Option String := fun _ => some "control"

/-- Metric that always raises, for the C5 witness. -/
def wMetricFail : String → Except String ℚ := fun _ => .error "metric failed"

/-- Discovered files for the C5 witness: one matching, one not. -/
def wFiles : List String := ["INsIDER_C1_ACT.csv", "notes.txt"]

/-- Row the driver produces for the matching file of the C5 witness. -/
def wRow : MetricRow := rowFor wInferG wMetricFail "INsIDER_C1_ACT.csv" ("INsIDER_C1", "ACT")

/-! ### Aggregation layer (C8)

`analyze_metrics.py` merges the per-metric CSV tables with successive
`pd.merge(..., on=["subject","method","group"], how="outer")` calls and then
runs `df.replace([np.inf, -np.inf], np.nan)`.  A table is a list of
(key, value) rows; the key type is abstract (instantiated with the
(subject, method, group) triple), and a value is a rational, an infinity, or
NaN.  A missing metric entry after the outer join is `none`, which also
models NaN in that column. -/

/-- Metric value stored in a CSV column: finite rational, ±infinity, or NaN. -/
inductive PVal where
  | num (q : ℚ)
  | pinf
  | ninf
  | nan
deriving DecidableEq

/-- Model of `df.replace([np.inf, -np.inf], np.nan)` on a single value. -/
def replaceInfWithNan : PVal → PVal
  | .pinf => .nan
  | .ninf => .nan
  | v => v

/-- Key column of a table. -/
def tkeys {K V : Type} (t : List (K × V)) : List K := t.map Prod.fst

/-- Value of the first row carrying the given key, if any. -/
def lookupVal {K V : Type} [DecidableEq K] (t : List (K × V)) (k : K) : Option V :=
  (t.find? (fun r => decide (r.1 = k))).map Prod.snd

/-- Model of `pd.merge(t1, t2, on=key, how="outer")` for key-unique tables:
the rows of `t1` each joined with the matching `t2` value, followed by the
rows of `t2` whose key does not occur in `t1`. -/
def outerMerge {K V₁ V₂ : Type} [DecidableEq K] (t1 : List (K × V₁)) (t2 : List (K × V₂)) :
    List (K × Option V₁ × Option V₂) :=
  t1.map (fun r => (r.1, some r.2, lookupVal t2 r.1)) ++
    (t2.filter (fun r => decide (r.1 ∉ tkeys t1))).map (fun r => (r.1, none, some r.2))

/-- Master table of `analyze_metrics.py`: two successive outer merges of the
three per-metric tables, the nested columns flattened, then
`replace([inf, -inf], nan)` applied to every metric column. -/
def masterTable3 {K : Type} [DecidableEq K] (t1 t2 t3 : List (K × PVal)) :
    List (K × Option PVal × Option PVal × Option PVal) :=
  (outerMerge (outerMerge t1 t2) t3).map
    (fun r => (r.1, (r.2.1.bind Prod.fst).map replaceInfWithNan,
      (r.2.1.bind Prod.snd).map replaceInfWithNan, r.2.2.map replaceInfWithNan))

/-- Key triple type of the metric tables: (subject, method, group). -/
abbrev KeyTriple : Type := String × String × String

/-- Concrete key for the C8 witness. -/
def wKey : KeyTriple := ("INsIDER_C1", "ACT", "control")

/-- First metric table for the C8 witness, holding an infinite value. -/
def wT1 : List (KeyTriple × PVal) := [(wKey, PVal.pinf)]

/-- Second metric table for the C8 witness. -/
def wT2 : List (KeyTriple × PVal) := [(wKey, PVal.num 2)]

/-- Third metric table for the C8 witness: the key is absent. -/
def wT3 : List (KeyTriple × PVal) := []

/-! ### Sparsifier (C2, C4, C6)

`modularity.py` thresholds a cleaned matrix to a target undirected density:
collect the strictly positive upper-triangle weights, keep the `k_edges`
largest (`k_edges = clamp(floor(target_used * total_possible), 1, m)`), mask,
optionally force each node's top-`knn_k` positive neighbors back in, then
symmetrize.  `np.partition`-based selection is modelled with a sorted copy of
the value list; `np.argpartition`'s top-`k` choice (ties broken arbitrarily)
is modelled by a deterministic weight-descending insertion sort. -/

/-- Row-major list of strictly-upper-triangle index pairs, as enumerated by
`np.triu_indices(n, 1)`. -/
def upperList (n : ℕ) : List (Fin n × Fin n) :=
  (List.finRange n).flatMap
    (fun i => ((List.finRange n).filter (fun j => decide (i < j))).map (fun j => (i, j)))

/-- Upper-triangle pairs with strictly positive weight (the `pos` arrays). -/
def posList {n : ℕ} (W : Mat n) : List (Fin n × Fin n) :=
  (upperList n).filter (fun p => decide (0 < W p.1 p.2))

/-- Model of `np.count_nonzero(np.triu(W, 1) > 0)`. -/
def numPosEdges {n : ℕ} (W : Mat n) : ℕ := (posList W).length

/-- Embedding of `density` from `modularity.py` (and `matrix_density`, and the
inline density expression of `global_efficiency.py`). -/
def density {n : ℕ} (W : Mat n) : ℚ :=
  if n < 2 then 0 else (2 * numPosEdges W : ℚ) / ((n * (n - 1) : ℕ) : ℚ)

/-- Positive upper-triangle weights sorted ascending (the sorted view of
`pos_vals` used to model `np.partition(pos_vals, -k)[-k]`). -/
def sortedPosVals {n : ℕ} (W : Mat n) : List ℚ :=
  List.insertionSort (fun a b : ℚ => a ≤ b) ((posList W).map (fun p => W p.1 p.2))

/-- Model of `total_possible = n * (n - 1) // 2`. -/
def totalPossible (n : ℕ) : ℕ := n * (n - 1) / 2

/-- Model of `avail_density = (m * 2.0) / (n * (n - 1))`. -/
def availDensity {n : ℕ} (W : Mat n) : ℚ :=
  (2 * numPosEdges W : ℚ) / ((n * (n - 1) : ℕ) : ℚ)

/-- Model of `target_used = min(target, avail_density)`. -/
def targetUsed {n : ℕ} (W : Mat n) (target : ℚ) : ℚ := min target (availDensity W)

/-- Model of `k_edges = max(1, min(int(np.floor(target_used * total_possible)), m))`. -/
def kEdges {n : ℕ} (W : Mat n) (target : ℚ) : ℕ :=
  max 1 (min (Int.toNat ⌊targetUsed W target * (totalPossible n : ℚ)⌋) (numPosEdges W))

/-- Model of `kth = np.partition(pos_vals, -k_edges)[-k_edges]`, the
`k_edges`-th largest positive weight. -/
def kthVal {n : ℕ} (W : Mat n) (target : ℚ) : ℚ :=
  (sortedPosVals W).getD (numPosEdges W - kEdges W target) 0

/-- Positive upper-triangle pairs whose weight reaches the cutoff
(`keep_mask = pos_vals >= kth`). -/
def keepList {n : ℕ} (W : Mat n) (kth : ℚ) : List (Fin n × Fin n) :=
  (posList W).filter (fun p => decide (kth ≤ W p.1 p.2))

/-- Boolean mask `M` after `M[pos_r[keep], pos_c[keep]] = True; M |= M.T;
np.fill_diagonal(M, False)` (the kept pairs only contain off-diagonal
positions, so the diagonal is already clear). -/
def baseMask {n : ℕ} (W : Mat n) (kth : ℚ) : Fin n → Fin n → Bool :=
  fun i j => decide ((i, j) ∈ keepList W kth) || decide ((j, i) ∈ keepList W kth)

/-- Positive off-diagonal neighbors of node `i` in ascending index order
(`nz = np.where(wi > 0)[0]` after `wi[i] = 0`). -/
def nbrList {n : ℕ} (W : Mat n) (i : Fin n) : List (Fin n) :=
  (List.finRange n).filter (fun j => decide (j ≠ i ∧ 0 < W i j))

instance nbrWeightRelDecidable {n : ℕ} (W : Mat n) (i : Fin n) :
    DecidableRel (fun a b : Fin n => W i b ≤ W i a) :=
  fun a b => inferInstanceAs (Decidable (W i b ≤ W i a))

instance nbrWeightRelTotal {n : ℕ} (W : Mat n) (i : Fin n) :
    IsTotal (Fin n) (fun a b : Fin n => W i b ≤ W i a) :=
  ⟨fun a b => le_total (W i b) (W i a)⟩

instance nbrWeightRelTrans {n : ℕ} (W : Mat n) (i : Fin n) :
    IsTrans (Fin n) (fun a b : Fin n => W i b ≤ W i a) :=
  ⟨fun _ _ _ hab hbc => le_trans hbc hab⟩

/-- Neighbors of `i` ordered by descending weight: the deterministic model of
the `np.argpartition(wi[nz], -k)` selection order. -/
def nbrByWeight {n : ℕ} (W : Mat n) (i : Fin n) : List (Fin n) :=
  List.insertionSort (fun a b : Fin n => W i b ≤ W i a) (nbrList W i)

/-- Model of `topk = nz[np.argpartition(wi[nz], -k)[-k:]]` with
`k = min(knn_k, nz.size)`: the `k` heaviest positive neighbors of `i`. -/
def topkNbrs {n : ℕ} (W : Mat n) (k : ℕ) (i : Fin n) : List (Fin n) :=
  (nbrByWeight W i).take (min k (nbrList W i).length)

/-- Model of one iteration of the k-NN backbone loop:
`M[i, topk] = True; M[topk, i] = True`. -/
def knnStep {n : ℕ} (W : Mat n) (k : ℕ) (M : Fin n → Fin n → Bool) (i : Fin n) :
    Fin n → Fin n → Bool :=
  fun a b =>
    M a b || (decide (a = i) && decide (b ∈ topkNbrs W k i)) ||
      (decide (b = i) && decide (a ∈ topkNbrs W k i))

/-- Model of the whole `for i in range(n)` k-NN backbone loop. -/
def knnLoop {n : ℕ} (W : Mat n) (k : ℕ) (M : Fin n → Fin n → Bool) :
    Fin n → Fin n → Bool :=
  (List.finRange n).foldl (knnStep W k) M

/-- Mask applied after the k-NN loop, when `knn_k` is non-zero. -/
def ttdMask {n : ℕ} (W : Mat n) (target : ℚ) (knn_k : ℕ) : Fin n → Fin n → Bool :=
  if knn_k = 0 then baseMask W (kthVal W target)
  else knnLoop W knn_k (baseMask W (kthVal W target))

/-- Model of `U = np.where(M, W, 0.0); U = np.maximum(U, U.T);
np.fill_diagonal(U, 0.0)`. -/
def applyMask {n : ℕ} (W : Mat n) (M : Fin n → Fin n → Bool) : Mat n :=
  fun i j =>
    if i = j then 0
    else max (if M i j then W i j else 0) (if M j i then W j i else 0)

/-- Embedding of `threshold_to_target_density` from `modularity.py`,
returning `(W_thr, target_used, available_density)`. -/
def threshold_to_target_density {n : ℕ} (W : Mat n) (target : ℚ) (knn_k : ℕ) :
    Mat n × ℚ × ℚ :=
  if n < 2 then (fun _ _ => 0, 0, 0)
  else if numPosEdges W = 0 then (fun _ _ => 0, 0, availDensity W)
  else if targetUsed W target ≤ 0 then (fun _ _ => 0, targetUsed W target, availDensity W)
  else (applyMask W (ttdMask W target knn_k), targetUsed W target, availDensity W)

/-- Full list of upper-triangle values (`vals = U[tri]` in
`threshold_proportional`). -/
def upperVals {n : ℕ} (W : Mat n) : List ℚ := (upperList n).map (fun q => W q.1 q.2)

/-- Cutoff `thr = np.partition(vals, -k)[-k]` of `threshold_proportional` for
`k = floor(p * vals.size)`. -/
def propThr {n : ℕ} (W : Mat n) (pv : ℚ) : ℚ :=
  (List.insertionSort (fun a b : ℚ => a ≤ b) (upperVals W)).getD
    ((upperVals W).length - Int.toNat ⌊pv * ((upperVals W).length : ℚ)⌋) 0

/-- Embedding of `threshold_proportional` from `node_strength.py`
(`p = None` disables it): keep the upper-triangle values reaching the cutoff
`thr` for `k = floor(p * #upper)` (all-zero result when `k <= 0`),
symmetrize, clear the diagonal. -/
def threshold_proportional {n : ℕ} (W : Mat n) (p : Option ℚ) : Mat n :=
  match p with
  | none => W
  | some pv =>
      if Int.toNat ⌊pv * ((upperVals W).length : ℚ)⌋ = 0 then (fun _ _ => 0)
      else
        fun i j =>
          if i = j then 0
          else max (if propThr W pv ≤ W i j then W i j else 0)
            (if propThr W pv ≤ W j i then W j i else 0)

/-! ### Largest connected component (C3, C6)

`largest_component_submatrix` builds `G = nx.from_numpy_array(W > 0.0)`,
returns the whole matrix when the graph has no nodes or no edges or a single
connected component, and otherwise restricts `W` to the sorted node list of a
maximum-cardinality component (`max(comps, key=len)` keeps the first maximal
component in discovery order, which is the component of the least node index
attaining the maximal size).  Components of the boolean graph are the
reachability classes. -/

/-- Adjacency of the graph `nx.from_numpy_array(W > 0.0)` on a cleaned matrix:
distinct nodes joined when either directed entry is positive. -/
def posAdj {n : ℕ} (W : Mat n) (i j : Fin n) : Prop :=
  i ≠ j ∧ (0 < W i j ∨ 0 < W j i)

instance posAdjDecidable {n : ℕ} (W : Mat n) (i j : Fin n) : Decidable (posAdj W i j) :=
  inferInstanceAs (Decidable (i ≠ j ∧ (0 < W i j ∨ 0 < W j i)))

/-- The positive-weight graph of a matrix. -/
def posGraph {n : ℕ} (W : Mat n) : SimpleGraph (Fin n) where
  Adj := posAdj W
  symm := by
    intro i j h
    exact ⟨Ne.symm h.1, Or.symm h.2⟩
  loopless := fun i h => h.1 rfl

instance posGraphAdjDecidable {n : ℕ} (W : Mat n) : DecidableRel (posGraph W).Adj :=
  fun i j => inferInstanceAs (Decidable (posAdj W i j))

/-- Connected component of node `i`, as a vertex set. -/
def compSet {n : ℕ} (W : Mat n) (i : Fin n) : Finset (Fin n) :=
  Finset.univ.filter (fun j => (posGraph W).Reachable i j)

/-- Whether the positive graph has at least one edge
(`G.number_of_edges() == 0` is the code's early-exit test). -/
def hasPosEdge {n : ℕ} (W : Mat n) : Prop :=
  ∃ p : Fin n × Fin n, posAdj W p.1 p.2

instance hasPosEdgeDecidable {n : ℕ} (W : Mat n) : Decidable (hasPosEdge W) :=
  inferInstanceAs (Decidable (∃ p : Fin n × Fin n, posAdj W p.1 p.2))

/-- Number of connected components (`len(comps)`). -/
def numComponents {n : ℕ} (W : Mat n) : ℕ :=
  Fintype.card (posGraph W).ConnectedComponent

/-- Least node whose component has maximal cardinality: the root of the
component picked by `max(comps, key=len)` (first maximal component in
node-discovery order). -/
def gccRoot {n : ℕ} (W : Mat n) : Option (Fin n) :=
  (List.finRange n).find?
    (fun i => decide (∀ j, (compSet W j).card ≤ (compSet W i).card))

/-- Index set kept by `largest_component_submatrix`. -/
def lcsIdx {n : ℕ} (W : Mat n) : Finset (Fin n) :=
  if ¬ hasPosEdge W then Finset.univ
  else if numComponents W ≤ 1 then Finset.univ
  else
    match gccRoot W with
    | some i => compSet W i
    | none => Finset.univ

/-- Kept indices in ascending order (`idx = np.array(sorted(gcc))`). -/
def lcsList {n : ℕ} (W : Mat n) : List (Fin n) :=
  (lcsIdx W).sort (fun a b : Fin n => a ≤ b)

/-- The submatrix `W_gcc = W[np.ix_(idx, idx)]`. -/
def lcsMat {n : ℕ} (W : Mat n) : Mat (lcsList W).length :=
  fun a b => W ((lcsList W).get a) ((lcsList W).get b)

/-- Embedding of `largest_component_submatrix`, returning `(W_gcc, idx)`. -/
def largest_component_submatrix {n : ℕ} (W : Mat n) :
    Mat (lcsList W).length × List (Fin n) :=
  (lcsMat W, lcsList W)

/-- Reachability through vertices of `s` only: connectivity of the induced
subgraph. -/
def ReachWithin {n : ℕ} (W : Mat n) (s : Finset (Fin n)) (a b : Fin n) : Prop :=
  Relation.ReflTransGen (fun x y => x ∈ s ∧ y ∈ s ∧ posAdj W x y) a b

/-- Concrete 2×2 zero matrix: two nodes, no edges. -/
def zeroMat2 : Mat 2 := fun _ _ => 0

/-! ### Preprocessing invariant (C6) -/

/-- Invariant asserted by the spec's proposed unit tests: symmetric with zero
diagonal. -/
def SymmZeroDiag {n : ℕ} (W : Mat n) : Prop :=
  (∀ i j, W i j = W j i) ∧ (∀ i, W i i = 0)

instance {n : ℕ} (W : Mat n) : Decidable (SymmZeroDiag W) := by
  unfold SymmZeroDiag
  infer_instance

/-! ## Theorems -/

/-- C1: every matrix produced by the three loader/cleaner functions is
symmetric, has a zero diagonal and has non-negative entries. -/
theorem loaders_produce_clean_matrices {n : ℕ} (A : Mat n) :
    IsClean (load_and_clean_matrix A) ∧ IsClean (load_W_csv A) ∧
      IsClean (load_and_clean_W A) := by
  have h : IsClean (clampNeg (zeroDiag (symmetrize A))) := by
    refine ⟨fun i j => ?_, fun i => ?_, fun i j => ?_⟩
    · simp only [clampNeg, zeroDiag, symmetrize]
      by_cases hij : i = j
      · subst hij; simp
      · have hji : ¬ j = i := fun h => hij h.symm
        simp only [hij, hji, if_false]
        rw [add_comm (A i j) (A j i)]
    · simp [clampNeg, zeroDiag]
    · simp only [clampNeg, zeroDiag, symmetrize]
      by_cases hij : i = j
      · simp [hij]
      · simp only [hij, if_false]
        split
        · exact le_refl 0
        · next hneg => exact le_of_not_lt hneg
  exact ⟨h, h, h⟩

theorem charToNat_inj {c d : Char} (h : c.toNat = d.toNat) : c = d := by
  apply Char.eq_of_val_eq
  apply UInt32.eq_of_toBitVec_eq
  exact BitVec.eq_of_toNat_eq h

theorem toNat_charOfNat (n : ℕ) (h1 : 65 ≤ n) (h2 : n ≤ 90) :
    (Char.ofNat n).toNat = n := by
  have hv : n.isValidChar := Or.inl (by omega)
  simp only [Char.ofNat, hv, dif_pos]
  show (Char.ofNatAux n hv).toNat = n
  simp only [Char.ofNatAux, Char.toNat, UInt32.toNat]
  simp only [BitVec.toNat_ofNatLt]

theorem le_char_toNat {c d : Char} (h : c ≤ d) : c.toNat ≤ d.toNat := h

theorem pyUpper_eq_C_iff (c : Char) : pyUpper c = 'C' ↔ c = 'C' ∨ c = 'c' := by
  unfold pyUpper
  constructor
  · intro h
    split at h
    · next hrange =>
      right
      obtain ⟨h1, h2⟩ := hrange
      have hv1 : (97 : ℕ) ≤ c.toNat := le_char_toNat h1
      have hv2 : c.toNat ≤ 122 := le_char_toNat h2
      have hn : (Char.ofNat (c.toNat - 32)).toNat = 67 := by rw [h]; decide
      rw [toNat_charOfNat (c.toNat - 32) (by omega) (by omega)] at hn
      exact charToNat_inj (show c.toNat = (99 : ℕ) by omega)
    · exact Or.inl h
  · rintro (rfl | rfl)
    · simp
    · simp

theorem pyUpper_eq_P_iff (c : Char) : pyUpper c = 'P' ↔ c = 'P' ∨ c = 'p' := by
  unfold pyUpper
  constructor
  · intro h
    split at h
    · next hrange =>
      right
      obtain ⟨h1, h2⟩ := hrange
      have hv1 : (97 : ℕ) ≤ c.toNat := le_char_toNat h1
      have hv2 : c.toNat ≤ 122 := le_char_toNat h2
      have hn : (Char.ofNat (c.toNat - 32)).toNat = 80 := by rw [h]; decide
      rw [toNat_charOfNat (c.toNat - 32) (by omega) (by omega)] at hn
      exact charToNat_inj (show c.toNat = (112 : ℕ) by omega)
    · exact Or.inl h
  · rintro (rfl | rfl)
    · simp
    · simp

theorem afterUnderscore_of_no_underscore (pre : List Char) (h : '_' ∉ pre) :
    afterUnderscore pre = none := by
  induction pre with
  | nil => rfl
  | cons c rest ih =>
      simp only [afterUnderscore]
      have hc : ¬ c = '_' := fun hc => h (hc ▸ List.mem_cons_self c rest)
      simp only [hc, if_false]
      exact ih fun hm => h (List.mem_cons_of_mem c hm)

theorem afterUnderscore_append (pre : List Char) (tail : List Char) (h : '_' ∉ pre) :
    afterUnderscore (pre ++ '_' :: tail) = some tail := by
  induction pre with
  | nil => simp [afterUnderscore]
  | cons c rest ih =>
      have hc : ¬ c = '_' := fun hc => h (hc ▸ List.mem_cons_self c rest)
      simp only [List.cons_append, afterUnderscore, hc, if_false]
      exact ih fun hm => h (List.mem_cons_of_mem c hm)

/-- C9: `infer_group` returns `"control"` iff the first character after the
first underscore is `C` or `c`, `"patient"` iff it is `P` or `p`, `none` for
any other character, and `none` when the subject has no underscore or nothing
follows the first underscore. -/
theorem infer_group_spec (pre rest : List Char) (c : Char) (hpre : '_' ∉ pre) :
    (infer_group (pre ++ '_' :: c :: rest) = some "control" ↔ c = 'C' ∨ c = 'c') ∧
    (infer_group (pre ++ '_' :: c :: rest) = some "patient" ↔ c = 'P' ∨ c = 'p') ∧
    (infer_group (pre ++ '_' :: c :: rest) = none ↔
      ¬ (c = 'C' ∨ c = 'c' ∨ c = 'P' ∨ c = 'p')) ∧
    infer_group (pre ++ ['_']) = none ∧
    infer_group pre = none := by
  have hmid : afterUnderscore (pre ++ '_' :: c :: rest) = some (c :: rest) :=
    afterUnderscore_append pre (c :: rest) hpre
  have hend : afterUnderscore (pre ++ ['_']) = some [] :=
    afterUnderscore_append pre [] hpre
  have hnone : afterUnderscore pre = none := afterUnderscore_of_no_underscore pre hpre
  refine ⟨?_, ?_, ?_, ?_, ?_⟩
  · simp only [infer_group, hmid]
    constructor
    · intro h
      by_cases hC : pyUpper c = 'C'
      · exact (pyUpper_eq_C_iff c).mp hC
      · simp only [hC, if_false] at h
        split at h <;> simp_all
    · intro h
      have : pyUpper c = 'C' := (pyUpper_eq_C_iff c).mpr h
      simp [this]
  · simp only [infer_group, hmid]
    constructor
    · intro h
      by_cases hC : pyUpper c = 'C'
      · simp [hC] at h
      · simp only [hC, if_false] at h
        by_cases hP : pyUpper c = 'P'
        · exact (pyUpper_eq_P_iff c).mp hP
        · simp [hP] at h
    · intro h
      have hP : pyUpper c = 'P' := (pyUpper_eq_P_iff c).mpr h
      have hC : ¬ pyUpper c = 'C' := by
        rw [hP]; decide
      simp [hC, hP]
  · simp only [infer_group, hmid]
    by_cases hC : pyUpper c = 'C'
    · have hcc := (pyUpper_eq_C_iff c).mp hC
      simp only [hC, if_true]
      constructor
      · intro h; exact absurd h (by simp)
      · intro h
        exact absurd (show c = 'C' ∨ c = 'c' ∨ c = 'P' ∨ c = 'p' by tauto) h
    · by_cases hP : pyUpper c = 'P'
      · have hpp := (pyUpper_eq_P_iff c).mp hP
        simp only [hC, if_false, hP, if_true]
        constructor
        · intro h; exact absurd h (by simp)
        · intro h
          exact absurd (show c = 'C' ∨ c = 'c' ∨ c = 'P' ∨ c = 'p' by tauto) h
      · simp only [hC, if_false, hP, if_true]
        constructor
        · intro _
          rintro (rfl | rfl | rfl | rfl)
          · exact hC (by decide)
          · exact hC (by decide)
          · exact hP (by decide)
          · exact hP (by decide)
        · intro _; trivial
  · simp [infer_group, hend]
  · simp [infer_group, hnone]

/-- Witness for C9 at the subject identifier `INsIDER_C019`. -/
theorem infer_group_spec_witness :
    ('_' ∉ ([ 'I', 'N', 's', 'I', 'D', 'E', 'R' ] : List Char)) ∧
      (infer_group ([ 'I', 'N', 's', 'I', 'D', 'E', 'R' ] ++ '_' :: 'C' :: [ '0', '1', '9' ]) =
          some "control" ↔ ('C' = 'C' ∨ 'C' = 'c')) :=
  ⟨by decide, (infer_group_spec [ 'I', 'N', 's', 'I', 'D', 'E', 'R' ] [ '0', '1', '9' ] 'C'
      (by decide)).1⟩

/-- C7: the length matrix passed to the shortest-path routine inverts every
strictly positive weight and sends every non-positive weight (in particular
every zero weight) to infinity; an entry is finite exactly when the weight is
strictly positive. -/
theorem lengthMatrix_spec {n : ℕ} (W : Mat n) (i j : Fin n) :
    (0 < W i j → lengthMatrix W i j = ((1 / W i j : ℚ) : WithTop ℚ)) ∧
    (W i j ≤ 0 → lengthMatrix W i j = ⊤) ∧
    (lengthMatrix W i j ≠ ⊤ ↔ 0 < W i j) := by
  refine ⟨fun h => ?_, fun h => ?_, ?_⟩
  · simp [lengthMatrix, h]
  · simp [lengthMatrix, not_lt.mpr h]
  · constructor
    · intro h
      by_contra hpos
      exact h (by simp [lengthMatrix, hpos])
    · intro h
      simp [lengthMatrix, h]

/-- Witness for C7: a concrete 2×2 matrix with `W 0 1 = 2` gives length `1/2`,
and its zero diagonal entry gives length `⊤`. -/
theorem lengthMatrix_spec_witness :
    (0 < twoMat 0 1 ∧ lengthMatrix twoMat 0 1 = ((1 / twoMat 0 1 : ℚ) : WithTop ℚ)) ∧
      (twoMat 0 0 ≤ 0 ∧ lengthMatrix twoMat 0 0 = ⊤) :=
  ⟨⟨by norm_num [twoMat], (lengthMatrix_spec twoMat 0 1).1 (by norm_num [twoMat])⟩,
   ⟨by norm_num [twoMat], (lengthMatrix_spec twoMat 0 0).2.1 (by norm_num [twoMat])⟩⟩

theorem matMax_ge {n : ℕ} (W : Mat (n + 1)) (i j : Fin (n + 1)) : W i j ≤ matMax W :=
  Finset.le_sup' (f := fun p : Fin (n + 1) × Fin (n + 1) => W p.1 p.2)
    (Finset.mem_univ (i, j))

theorem matMax_attained {n : ℕ} (W : Mat (n + 1)) : ∃ i j, matMax W = W i j := by
  obtain ⟨p, _, hp⟩ := Finset.exists_mem_eq_sup' Finset.univ_nonempty
    (fun p : Fin (n + 1) × Fin (n + 1) => W p.1 p.2)
  exact ⟨p.1, p.2, hp⟩

/-- C10: with normalization enabled, `maybe_normalize` divides by the maximum
entry when it is positive (so the maximum of the result is 1) and returns the
matrix unchanged otherwise; consequently it is idempotent over exact rational
arithmetic. -/
theorem maybe_normalize_spec {n : ℕ} (W : Mat (n + 1)) :
    (0 < matMax W →
      (∀ i j, maybe_normalize W true i j = W i j / matMax W) ∧
        matMax (maybe_normalize W true) = 1) ∧
    (matMax W ≤ 0 → maybe_normalize W true = W) ∧
    maybe_normalize (maybe_normalize W true) true = maybe_normalize W true := by
  have hnorm : 0 < matMax W →
      (∀ i j, maybe_normalize W true i j = W i j / matMax W) ∧
        matMax (maybe_normalize W true) = 1 := by
    intro hpos
    have hval : ∀ i j, maybe_normalize W true i j = W i j / matMax W := by
      intro i j
      simp [maybe_normalize, hpos]
    refine ⟨hval, le_antisymm ?_ ?_⟩
    · obtain ⟨i, j, hij⟩ := matMax_attained (maybe_normalize W true)
      rw [hij, hval i j]
      exact div_le_one_of_le₀ (matMax_ge W i j) (le_of_lt hpos)
    · obtain ⟨i, j, hij⟩ := matMax_attained W
      have h1 : maybe_normalize W true i j = 1 := by
        rw [hval i j, ← hij, div_self (ne_of_gt hpos)]
      calc (1 : ℚ) = maybe_normalize W true i j := h1.symm
        _ ≤ matMax (maybe_normalize W true) := matMax_ge _ i j
  refine ⟨hnorm, fun hle => ?_, ?_⟩
  · simp [maybe_normalize, not_lt.mpr hle]
  · by_cases hpos : 0 < matMax W
    · obtain ⟨hval, hmax⟩ := hnorm hpos
      have h1 : (0 : ℚ) < matMax (maybe_normalize W true) := by rw [hmax]; norm_num
      funext i j
      simp only [maybe_normalize, if_true, h1, if_pos]
      rw [show matMax (if 0 < matMax W then fun i j => W i j / matMax W else W) = 1 from hmax]
      exact div_one _
    · have hid : maybe_normalize W true = W := by simp [maybe_normalize, hpos]
      rw [hid]
      exact hid

/-- Witness for C10 at a concrete 2×2 matrix with positive maximum 2. -/
theorem maybe_normalize_spec_witness :
    (0 < matMax twoMat) ∧
      ((∀ i j, maybe_normalize twoMat true i j = twoMat i j / matMax twoMat) ∧
        matMax (maybe_normalize twoMat true) = 1) :=
  ⟨by decide, (maybe_normalize_spec twoMat).1 (by decide)⟩

theorem buildRows_eq_filterMap (matchFn : String → Option (String × String))
    (inferG : String → Option String) (metric : String → Except String ℚ)
    (files : List String) :
    buildRows matchFn inferG metric files =
      files.filterMap (fun fname =>
        (matchFn fname).map (rowFor inferG metric fname)) := by
  have key : ∀ (fs : List String) (acc : List MetricRow),
      fs.foldl
        (fun rows fname =>
          match matchFn fname with
          | none => rows
          | some (subj, meth) =>
              rows ++ [{ subject := subj, method := meth, group := inferG subj,
                         value := match metric fname with
                           | .ok v => some v
                           | .error _ => none,
                         fname := fname }])
        acc =
        acc ++ fs.filterMap (fun fname =>
          (matchFn fname).map (rowFor inferG metric fname)) := by
    intro fs
    induction fs with
    | nil => intro acc; simp
    | cons f rest ih =>
        intro acc
        simp only [List.foldl_cons, List.filterMap_cons]
        cases hm : matchFn f with
        | none => simpa using ih acc
        | some sm =>
            obtain ⟨subj, meth⟩ := sm
            rw [ih]
            simp [rowFor]
  rw [buildRows, key files []]
  simp

/-- C5: the driver appends exactly one row per file matching the pattern, in
discovery order, regardless of metric failures; on a metric exception the
recorded value of that row is `NaN` (`none`), and on success it is the
computed value. -/
theorem buildRows_spec (matchFn : String → Option (String × String))
    (inferG : String → Option String) (metric : String → Except String ℚ)
    (files : List String) :
    ((buildRows matchFn inferG metric files).map MetricRow.fname =
      files.filter (fun f => (matchFn f).isSome)) ∧
    (∀ r ∈ buildRows matchFn inferG metric files,
      (∀ e, metric r.fname = .error e → r.value = none) ∧
      (∀ v, metric r.fname = .ok v → r.value = some v)) := by
  rw [buildRows_eq_filterMap]
  constructor
  · induction files with
    | nil => simp
    | cons f rest ih =>
        simp only [List.filterMap_cons, List.filter_cons]
        cases hm : matchFn f with
        | none => simpa [hm] using ih
        | some sm => simpa [hm, rowFor] using ih
  · intro r hr
    rw [List.mem_filterMap] at hr
    obtain ⟨f, _, hf⟩ := hr
    cases hm : matchFn f with
    | none => rw [hm] at hf; simp at hf
    | some sm =>
        rw [hm] at hf
        have hf2 : rowFor inferG metric f sm = r := by simpa using hf
        subst hf2
        constructor
        · intro e he
          simp only [rowFor] at he ⊢
          rw [he]
        · intro v hv
          simp only [rowFor] at hv ⊢
          rw [hv]

/-- Witness for C5: with a failing metric, the matching file's row is present
and carries a `NaN` (`none`) value. -/
theorem buildRows_spec_witness :
    (wRow ∈ buildRows wMatchFn wInferG wMetricFail wFiles) ∧ wRow.value = none :=
  ⟨by decide,
   ((buildRows_spec wMatchFn wInferG wMetricFail wFiles).2 wRow (by decide)).1
     "metric failed" rfl⟩

theorem replaceInfWithNan_ne_inf (v : PVal) :
    replaceInfWithNan v ≠ .pinf ∧ replaceInfWithNan v ≠ .ninf := by
  cases v <;> simp [replaceInfWithNan]

theorem lookupVal_eq_none_iff {K V : Type} [DecidableEq K] (t : List (K × V)) (k : K) :
    lookupVal t k = none ↔ k ∉ tkeys t := by
  constructor
  · intro h hk
    rw [tkeys, List.mem_map] at hk
    obtain ⟨r, hr, rfl⟩ := hk
    have hfind := Option.map_eq_none'.mp h
    have := List.find?_eq_none.mp hfind r hr
    simp at this
  · intro h
    rw [lookupVal]
    have hfind : List.find? (fun r => decide (r.1 = k)) t = none := by
      rw [List.find?_eq_none]
      intro r hr hdec
      rw [decide_eq_true_eq] at hdec
      exact h (by rw [tkeys]; exact List.mem_map.mpr ⟨r, hr, hdec⟩)
    rw [hfind]
    rfl

theorem lookupVal_of_mem {K V : Type} [DecidableEq K] {t : List (K × V)} {k : K} {v : V}
    (hmem : (k, v) ∈ t) (hnd : (tkeys t).Nodup) : lookupVal t k = some v := by
  induction t with
  | nil => cases hmem
  | cons r rest ih =>
      simp only [tkeys, List.map_cons, List.nodup_cons] at hnd
      rcases List.mem_cons.mp hmem with heq | htail
      · have heq2 : r = (k, v) := heq.symm
        subst heq2
        rw [lookupVal, List.find?_cons_of_pos _ (by simp)]
        rfl
      · have hk : ¬ r.1 = k := by
          intro hkeq
          exact hnd.1 (by
            rw [hkeq]
            exact List.mem_map.mpr ⟨(k, v), htail, rfl⟩)
        rw [lookupVal, List.find?_cons_of_neg _ (by simpa using hk)]
        exact ih htail hnd.2

theorem tkeys_outerMerge {K V₁ V₂ : Type} [DecidableEq K]
    (t1 : List (K × V₁)) (t2 : List (K × V₂)) :
    tkeys (outerMerge t1 t2) =
      tkeys t1 ++ (tkeys t2).filter (fun k => decide (k ∉ tkeys t1)) := by
  simp only [outerMerge, tkeys, List.map_append, List.map_map]
  have hleft : List.map (Prod.fst ∘ fun r : K × V₁ =>
      (r.1, (some r.2 : Option V₁), lookupVal t2 r.1)) t1 = List.map Prod.fst t1 := by
    induction t1 with
    | nil => rfl
    | cons r rest ih => simp only [List.map_cons, ih, Function.comp_apply]
  have hright : ∀ t : List (K × V₂),
      List.map (Prod.fst ∘ fun r : K × V₂ => (r.1, (none : Option V₁), some r.2))
        (List.filter (fun r => decide (r.1 ∉ List.map Prod.fst t1)) t) =
        List.filter (fun k => decide (k ∉ List.map Prod.fst t1)) (List.map Prod.fst t) := by
    intro t
    induction t with
    | nil => rfl
    | cons r rest ih =>
        simp only [List.filter_cons, List.map_cons]
        by_cases h : r.1 ∈ List.map Prod.fst t1
        · simpa [h] using ih
        · simpa [h] using ih
  rw [hleft, hright t2]

theorem mem_tkeys_outerMerge {K V₁ V₂ : Type} [DecidableEq K]
    (t1 : List (K × V₁)) (t2 : List (K × V₂)) (k : K) :
    k ∈ tkeys (outerMerge t1 t2) ↔ k ∈ tkeys t1 ∨ k ∈ tkeys t2 := by
  rw [tkeys_outerMerge]
  simp only [List.mem_append, List.mem_filter, decide_eq_true_eq]
  by_cases h : k ∈ tkeys t1 <;> simp [h]

theorem nodup_tkeys_outerMerge {K V₁ V₂ : Type} [DecidableEq K]
    {t1 : List (K × V₁)} {t2 : List (K × V₂)}
    (h1 : (tkeys t1).Nodup) (h2 : (tkeys t2).Nodup) :
    (tkeys (outerMerge t1 t2)).Nodup := by
  rw [tkeys_outerMerge]
  refine List.Nodup.append h1 (h2.filter _) ?_
  intro k hk1 hk2
  rw [List.mem_filter, decide_eq_true_eq] at hk2
  exact hk2.2 hk1

theorem outerMerge_row_values {K V₁ V₂ : Type} [DecidableEq K]
    {t1 : List (K × V₁)} {t2 : List (K × V₂)}
    (h1 : (tkeys t1).Nodup) (h2 : (tkeys t2).Nodup) {r : K × Option V₁ × Option V₂}
    (hr : r ∈ outerMerge t1 t2) :
    r.2.1 = lookupVal t1 r.1 ∧ r.2.2 = lookupVal t2 r.1 := by
  rw [outerMerge, List.mem_append] at hr
  rcases hr with hleft | hright
  · obtain ⟨⟨rk, rv⟩, hrow, rfl⟩ := List.mem_map.mp hleft
    constructor
    · exact (lookupVal_of_mem hrow h1).symm
    · rfl
  · obtain ⟨⟨rk, rv⟩, hrow, rfl⟩ := List.mem_map.mp hright
    rw [List.mem_filter, decide_eq_true_eq] at hrow
    constructor
    · exact ((lookupVal_eq_none_iff t1 rk).mpr hrow.2).symm
    · exact (lookupVal_of_mem hrow.1 h2).symm

theorem countP_key_eq_count {K V : Type} [DecidableEq K] (t : List (K × V)) (k : K) :
    t.countP (fun r => decide (r.1 = k)) = (tkeys t).count k := by
  rw [tkeys, List.count, List.countP_map]
  rfl

theorem countP_key_outerMerge {K V₁ V₂ : Type} [DecidableEq K]
    {t1 : List (K × V₁)} {t2 : List (K × V₂)}
    (h1 : (tkeys t1).Nodup) (h2 : (tkeys t2).Nodup) (k : K) :
    (outerMerge t1 t2).countP (fun r => decide (r.1 = k)) =
      if k ∈ tkeys t1 ∨ k ∈ tkeys t2 then 1 else 0 := by
  rw [countP_key_eq_count]
  by_cases hmem : k ∈ tkeys t1 ∨ k ∈ tkeys t2
  · rw [if_pos hmem]
    exact List.count_eq_one_of_mem (nodup_tkeys_outerMerge h1 h2)
      ((mem_tkeys_outerMerge t1 t2 k).mpr hmem)
  · rw [if_neg hmem]
    exact List.count_eq_zero_of_not_mem
      (fun hk => hmem ((mem_tkeys_outerMerge t1 t2 k).mp hk))

theorem lookupVal_outerMerge_of_mem {K V₁ V₂ : Type} [DecidableEq K]
    {t1 : List (K × V₁)} {t2 : List (K × V₂)}
    (h1 : (tkeys t1).Nodup) (h2 : (tkeys t2).Nodup) {k : K}
    (hk : k ∈ tkeys (outerMerge t1 t2)) :
    lookupVal (outerMerge t1 t2) k = some (lookupVal t1 k, lookupVal t2 k) := by
  rw [tkeys, List.mem_map] at hk
  obtain ⟨row, hrow, rfl⟩ := hk
  have hvals := outerMerge_row_values h1 h2 hrow
  have hmem2 : (row.1, row.2) ∈ outerMerge t1 t2 := by simpa using hrow
  rw [lookupVal_of_mem hmem2 (nodup_tkeys_outerMerge h1 h2)]
  rw [show row.2 = (row.2.1, row.2.2) from rfl, hvals.1, hvals.2]

theorem map_replace_ne_inf (o : Option PVal) :
    o.map replaceInfWithNan ≠ some .pinf ∧ o.map replaceInfWithNan ≠ some .ninf := by
  cases o with
  | none => simp
  | some v =>
      have := replaceInfWithNan_ne_inf v
      simp [this.1, this.2]

/-- C8: the master table built by `analyze_metrics.py` is the outer join of
the three per-metric tables on the key triple: every key present in at least
one input appears exactly once; each metric column carries that table's value
with `±inf` replaced by NaN, and is NaN (`none`) exactly when the key is
absent from that table; no infinite value survives the replacement. -/
theorem masterTable3_spec {K : Type} [DecidableEq K] (t1 t2 t3 : List (K × PVal))
    (h1 : (tkeys t1).Nodup) (h2 : (tkeys t2).Nodup) (h3 : (tkeys t3).Nodup) :
    (∀ k, (masterTable3 t1 t2 t3).countP (fun r => decide (r.1 = k)) =
      if k ∈ tkeys t1 ∨ k ∈ tkeys t2 ∨ k ∈ tkeys t3 then 1 else 0) ∧
    (∀ r ∈ masterTable3 t1 t2 t3,
      r.2.1 = (lookupVal t1 r.1).map replaceInfWithNan ∧
      r.2.2.1 = (lookupVal t2 r.1).map replaceInfWithNan ∧
      r.2.2.2 = (lookupVal t3 r.1).map replaceInfWithNan ∧
      (r.2.1 = none ↔ r.1 ∉ tkeys t1) ∧
      (r.2.2.1 = none ↔ r.1 ∉ tkeys t2) ∧
      (r.2.2.2 = none ↔ r.1 ∉ tkeys t3) ∧
      (r.2.1 ≠ some .pinf ∧ r.2.1 ≠ some .ninf) ∧
      (r.2.2.1 ≠ some .pinf ∧ r.2.2.1 ≠ some .ninf) ∧
      (r.2.2.2 ≠ some .pinf ∧ r.2.2.2 ≠ some .ninf)) := by
  have h12 : (tkeys (outerMerge t1 t2)).Nodup := nodup_tkeys_outerMerge h1 h2
  constructor
  · intro k
    have hcount : (masterTable3 t1 t2 t3).countP (fun r => decide (r.1 = k)) =
        (outerMerge (outerMerge t1 t2) t3).countP (fun r => decide (r.1 = k)) := by
      rw [masterTable3, List.countP_map]
      rfl
    rw [hcount, countP_key_outerMerge h12 h3 k]
    simp only [mem_tkeys_outerMerge, or_assoc]
  · intro r hr
    rw [masterTable3, List.mem_map] at hr
    obtain ⟨row, hrow, rfl⟩ := hr
    have hvals := outerMerge_row_values h12 h3 hrow
    have hcol1 : row.2.1.bind Prod.fst = lookupVal t1 row.1 := by
      by_cases hk : row.1 ∈ tkeys (outerMerge t1 t2)
      · rw [hvals.1, lookupVal_outerMerge_of_mem h1 h2 hk]
        rfl
      · rw [hvals.1, (lookupVal_eq_none_iff _ _).mpr hk,
          (lookupVal_eq_none_iff t1 row.1).mpr
            (fun hmem => hk ((mem_tkeys_outerMerge t1 t2 row.1).mpr (Or.inl hmem)))]
        rfl
    have hcol2 : row.2.1.bind Prod.snd = lookupVal t2 row.1 := by
      by_cases hk : row.1 ∈ tkeys (outerMerge t1 t2)
      · rw [hvals.1, lookupVal_outerMerge_of_mem h1 h2 hk]
        rfl
      · rw [hvals.1, (lookupVal_eq_none_iff _ _).mpr hk,
          (lookupVal_eq_none_iff t2 row.1).mpr
            (fun hmem => hk ((mem_tkeys_outerMerge t1 t2 row.1).mpr (Or.inr hmem)))]
        rfl
    refine ⟨by rw [← hcol1], by rw [← hcol2], by rw [← hvals.2], ?_, ?_, ?_,
      map_replace_ne_inf _, map_replace_ne_inf _, map_replace_ne_inf _⟩
    · rw [show ((row.1, (row.2.1.bind Prod.fst).map replaceInfWithNan,
        (row.2.1.bind Prod.snd).map replaceInfWithNan,
        row.2.2.map replaceInfWithNan) : K × Option PVal × Option PVal × Option PVal).2.1 =
          (row.2.1.bind Prod.fst).map replaceInfWithNan from rfl, hcol1]
      rw [Option.map_eq_none']
      exact lookupVal_eq_none_iff t1 row.1
    · rw [show ((row.1, (row.2.1.bind Prod.fst).map replaceInfWithNan,
        (row.2.1.bind Prod.snd).map replaceInfWithNan,
        row.2.2.map replaceInfWithNan) : K × Option PVal × Option PVal × Option PVal).2.2.1 =
          (row.2.1.bind Prod.snd).map replaceInfWithNan from rfl, hcol2]
      rw [Option.map_eq_none']
      exact lookupVal_eq_none_iff t2 row.1
    · rw [show ((row.1, (row.2.1.bind Prod.fst).map replaceInfWithNan,
        (row.2.1.bind Prod.snd).map replaceInfWithNan,
        row.2.2.map replaceInfWithNan) : K × Option PVal × Option PVal × Option PVal).2.2.2 =
          row.2.2.map replaceInfWithNan from rfl, hvals.2]
      rw [Option.map_eq_none']
      exact lookupVal_eq_none_iff t3 row.1

/-- Witness for C8 at concrete one-row tables. -/
theorem masterTable3_spec_witness :
    (masterTable3 wT1 wT2 wT3).countP (fun r => decide (r.1 = wKey)) =
      if wKey ∈ tkeys wT1 ∨ wKey ∈ tkeys wT2 ∨ wKey ∈ tkeys wT3 then 1 else 0 :=
  (masterTable3_spec wT1 wT2 wT3 (by decide) (by decide) (by decide)).1 wKey

theorem mem_upperList {n : ℕ} (p : Fin n × Fin n) : p ∈ upperList n ↔ p.1 < p.2 := by
  constructor
  · intro hp
    rw [upperList, List.mem_flatMap] at hp
    obtain ⟨i, _, hmem⟩ := hp
    rw [List.mem_map] at hmem
    obtain ⟨j, hj, rfl⟩ := hmem
    rw [List.mem_filter, decide_eq_true_eq] at hj
    exact hj.2
  · intro hlt
    rw [upperList, List.mem_flatMap]
    refine ⟨p.1, List.mem_finRange p.1, ?_⟩
    rw [List.mem_map]
    refine ⟨p.2, ?_, rfl⟩
    rw [List.mem_filter, decide_eq_true_eq]
    exact ⟨List.mem_finRange p.2, hlt⟩

theorem not_mem_keepList_of_lower {n : ℕ} (W : Mat n) (kth : ℚ) {i j : Fin n}
    (hij : i < j) : (j, i) ∉ keepList W kth := by
  intro hmem
  rw [keepList, List.mem_filter] at hmem
  rw [posList, List.mem_filter] at hmem
  have := (mem_upperList (j, i)).mp hmem.1.1
  exact absurd hij (not_lt.mpr (le_of_lt this))

theorem mem_keepList_iff {n : ℕ} (W : Mat n) (kth : ℚ) (p : Fin n × Fin n) :
    p ∈ keepList W kth ↔ p ∈ upperList n ∧ 0 < W p.1 p.2 ∧ kth ≤ W p.1 p.2 := by
  rw [keepList, List.mem_filter, posList, List.mem_filter]
  simp [and_assoc]

/-- Positive entries of the base-masked matrix are exactly the kept pairs. -/
theorem posList_applyMask_baseMask {n : ℕ} (W : Mat n) (kth : ℚ)
    (hsymm : ∀ i j, W i j = W j i) :
    posList (applyMask W (baseMask W kth)) = keepList W kth := by
  have hcongr : ∀ p ∈ upperList n,
      decide (0 < applyMask W (baseMask W kth) p.1 p.2) = decide (p ∈ keepList W kth) := by
    intro p hp
    have hlt : p.1 < p.2 := (mem_upperList p).mp hp
    have hne : ¬ p.1 = p.2 := ne_of_lt hlt
    have hlow : (p.2, p.1) ∉ keepList W kth := not_mem_keepList_of_lower W kth hlt
    rw [decide_eq_decide]
    rw [applyMask]
    simp only [hne, if_false]
    rw [baseMask, baseMask]
    rw [hsymm p.2 p.1]
    by_cases hk : p ∈ keepList W kth
    · have hk2 : ((p.1, p.2) : Fin n × Fin n) ∈ keepList W kth := by simpa using hk
      have hpos : 0 < W p.1 p.2 := ((mem_keepList_iff W kth p).mp hk).2.1
      simp [hk2, hlow, hk, hpos]
    · have hk2 : ((p.1, p.2) : Fin n × Fin n) ∉ keepList W kth := by simpa using hk
      simp [hk2, hlow, hk]
  calc posList (applyMask W (baseMask W kth))
      = (upperList n).filter (fun p => decide (p ∈ keepList W kth)) := by
        rw [posList]; exact List.filter_congr hcongr
    _ = keepList W kth := by
        rw [keepList, posList, List.filter_filter]
        apply List.filter_congr
        intro p hp
        simp [mem_keepList_iff, hp, and_comm]

/-- Counting elements at or above the i-th entry of a strictly sorted list:
exactly the entries from position i on qualify. -/
theorem countP_ge_getD_of_sorted {l : List ℚ} (hs : l.Sorted (· < ·)) :
    ∀ i : ℕ, i < l.length →
      l.countP (fun v => decide (l.getD i 0 ≤ v)) = l.length - i := by
  induction l with
  | nil => intro i hi; cases hi
  | cons a t ih =>
      have ha : ∀ x ∈ t, a < x := (List.sorted_cons.mp hs).1
      have ht : t.Sorted (· < ·) := (List.sorted_cons.mp hs).2
      intro i hi
      cases i with
      | zero =>
          simp only [List.getD_cons_zero, List.countP_cons]
          have hall : t.countP (fun v => decide (a ≤ v)) = t.length :=
            List.countP_eq_length.mpr (fun x hx => by
              simpa using le_of_lt (ha x hx))
          simp [hall]
      | succ j =>
          have hj : j < t.length := by simpa using hi
          simp only [List.getD_cons_succ, List.countP_cons]
          have hget : t.getD j 0 ∈ t := by
            rw [List.getD_eq_getElem t 0 hj]
            exact List.getElem_mem hj
          have hhead : ¬ (t.getD j 0 ≤ a) := not_le.mpr (ha _ hget)
          rw [ih ht j hj, if_neg (by simpa using hhead)]
          simp only [List.length_cons]
          omega

theorem one_le_kEdges {n : ℕ} (W : Mat n) (d : ℚ) : 1 ≤ kEdges W d :=
  le_max_left 1 _

theorem kEdges_le_m {n : ℕ} (W : Mat n) (d : ℚ) (hm : 1 ≤ numPosEdges W) :
    kEdges W d ≤ numPosEdges W := by
  rw [kEdges]
  omega

/-- With pairwise-distinct positive weights, the cutoff keeps exactly
`k_edges` edges. -/
theorem length_keepList_kthVal {n : ℕ} (W : Mat n) (d : ℚ)
    (hnd : (((posList W).map (fun p => W p.1 p.2))).Nodup)
    (hm : 1 ≤ numPosEdges W) :
    (keepList W (kthVal W d)).length = kEdges W d := by
  have hperm : List.Perm (sortedPosVals W) ((posList W).map (fun p => W p.1 p.2)) :=
    List.perm_insertionSort _ _
  have hlen : (sortedPosVals W).length = numPosEdges W := by
    rw [hperm.length_eq, List.length_map, numPosEdges]
  have hsle : (sortedPosVals W).Sorted (· ≤ ·) := List.sorted_insertionSort _ _
  have hndS : (sortedPosVals W).Nodup := hperm.nodup_iff.mpr hnd
  have hslt : (sortedPosVals W).Sorted (· < ·) := hsle.lt_of_le hndS
  have hk1 : 1 ≤ kEdges W d := one_le_kEdges W d
  have hkm : kEdges W d ≤ numPosEdges W := kEdges_le_m W d hm
  have hidx : numPosEdges W - kEdges W d < (sortedPosVals W).length := by
    rw [hlen]; omega
  have hcount := countP_ge_getD_of_sorted hslt (numPosEdges W - kEdges W d) hidx
  rw [hlen] at hcount
  have hsub : numPosEdges W - (numPosEdges W - kEdges W d) = kEdges W d := by omega
  rw [hsub] at hcount
  calc (keepList W (kthVal W d)).length
      = (posList W).countP (fun p => decide (kthVal W d ≤ W p.1 p.2)) := by
        rw [keepList, ← List.countP_eq_length_filter]
    _ = ((posList W).map (fun p => W p.1 p.2)).countP
          (fun v => decide (kthVal W d ≤ v)) := by
        rw [List.countP_map]
        rfl
    _ = (sortedPosVals W).countP (fun v => decide (kthVal W d ≤ v)) :=
        (hperm.countP_eq _).symm
    _ = kEdges W d := hcount

theorem two_mul_totalPossible (n : ℕ) : 2 * totalPossible n = n * (n - 1) := by
  rw [totalPossible]
  apply Nat.mul_div_cancel'
  cases n with
  | zero => simp
  | succ k =>
      have hev : Even ((k + 1) * k) := by
        rw [mul_comm]
        exact Nat.even_mul_succ_self k
      simpa using hev.two_dvd

theorem density_zero_matrix (n : ℕ) : density (fun _ _ => (0 : ℚ) : Mat n) = 0 := by
  rw [density]
  split
  · rfl
  · have : numPosEdges (fun _ _ => (0 : ℚ) : Mat n) = 0 := by
      rw [numPosEdges, posList]
      simp
    rw [this]
    simp

/-- C2 (amended): with `knn_k = 0`, the thresholded matrix's density never
exceeds the available density of `W`; it is also at most
`min(d, available density)` provided the positive upper-triangle weights are
pairwise distinct and the floor `⌊min(d, avail)·total_possible⌋` is at least 1
(the clamp `k_edges = max(1, …)` and ties at the cutoff weight can otherwise
push the density above the target). -/
theorem ttd_density_bound {n : ℕ} (W : Mat n) (d : ℚ) (hn : 2 ≤ n)
    (hW : IsClean W) (hd0 : 0 < d) (_hd1 : d ≤ 1) :
    density (threshold_to_target_density W d 0).1 ≤ density W ∧
    ((((posList W).map (fun p => W p.1 p.2)).Nodup ∧
        1 ≤ ⌊min d (density W) * (totalPossible n : ℚ)⌋) →
      density (threshold_to_target_density W d 0).1 ≤ min d (density W)) := by
  have hn2 : ¬ n < 2 := not_lt.mpr hn
  have hDnat : 2 ≤ n * (n - 1) := by
    have h1 : 1 ≤ n - 1 := by omega
    calc 2 = 2 * 1 := rfl
      _ ≤ n * (n - 1) := Nat.mul_le_mul hn h1
  have hD0 : (0 : ℚ) < ((n * (n - 1) : ℕ) : ℚ) := by
    have h2 : (2 : ℚ) ≤ ((n * (n - 1) : ℕ) : ℚ) := by exact_mod_cast hDnat
    linarith
  have hdW : density W = availDensity W := by
    rw [density, if_neg hn2, availDensity]
  have hdVnonneg : 0 ≤ density W := by
    rw [hdW, availDensity]
    apply div_nonneg _ (le_of_lt hD0)
    positivity
  by_cases hm : numPosEdges W = 0
  · have hres : threshold_to_target_density W d 0 =
        ((fun _ _ => 0 : Mat n), 0, availDensity W) := by
      rw [threshold_to_target_density, if_neg hn2, if_pos hm]
    rw [hres]
    constructor
    · rw [density_zero_matrix]
      exact hdVnonneg
    · intro _
      rw [density_zero_matrix]
      exact le_min (le_of_lt hd0) hdVnonneg
  · have hm1 : 1 ≤ numPosEdges W := Nat.one_le_iff_ne_zero.mpr hm
    have havail : 0 < availDensity W := by
      rw [availDensity]
      apply div_pos _ hD0
      have : (1 : ℚ) ≤ (numPosEdges W : ℚ) := by exact_mod_cast hm1
      linarith
    have htu : 0 < targetUsed W d := lt_min hd0 havail
    have hres : threshold_to_target_density W d 0 =
        (applyMask W (ttdMask W d 0), targetUsed W d, availDensity W) := by
      rw [threshold_to_target_density, if_neg hn2, if_neg hm, if_neg (not_le.mpr htu)]
    have hmask : ttdMask W d 0 = baseMask W (kthVal W d) := by
      rw [ttdMask, if_pos rfl]
    have hposU : posList (applyMask W (ttdMask W d 0)) = keepList W (kthVal W d) := by
      rw [hmask]
      exact posList_applyMask_baseMask W (kthVal W d) hW.1
    have hdU : density (applyMask W (ttdMask W d 0)) =
        (2 * (keepList W (kthVal W d)).length : ℚ) / ((n * (n - 1) : ℕ) : ℚ) := by
      rw [density, if_neg hn2, numPosEdges, hposU]
    have hlen_le : (keepList W (kthVal W d)).length ≤ numPosEdges W := by
      rw [keepList, numPosEdges]
      exact List.length_filter_le _ _
    rw [hres]
    constructor
    · rw [hdU, hdW, availDensity]
      gcongr
    · intro hcond
      obtain ⟨hnd, hfloor⟩ := hcond
      have hklen : (keepList W (kthVal W d)).length = kEdges W d :=
        length_keepList_kthVal W d hnd hm1
      have hmin_eq : min d (density W) = targetUsed W d := by
        rw [targetUsed, hdW]
      rw [hmin_eq] at hfloor
      have hfl0 : 0 ≤ ⌊targetUsed W d * (totalPossible n : ℚ)⌋ := by omega
      have htoNat : 1 ≤ Int.toNat ⌊targetUsed W d * (totalPossible n : ℚ)⌋ := by omega
      have hkle : kEdges W d ≤ Int.toNat ⌊targetUsed W d * (totalPossible n : ℚ)⌋ := by
        rw [kEdges]
        omega
      have hcast : (kEdges W d : ℚ) ≤ targetUsed W d * (totalPossible n : ℚ) := by
        calc (kEdges W d : ℚ)
            ≤ (Int.toNat ⌊targetUsed W d * (totalPossible n : ℚ)⌋ : ℚ) := by
              exact_mod_cast hkle
          _ = ((⌊targetUsed W d * (totalPossible n : ℚ)⌋ : ℤ) : ℚ) := by
              exact_mod_cast Int.toNat_of_nonneg hfl0
          _ ≤ targetUsed W d * (totalPossible n : ℚ) := Int.floor_le _
      rw [hmin_eq, hdU, hklen, div_le_iff₀ hD0]
      have hDD : ((n * (n - 1) : ℕ) : ℚ) = 2 * (totalPossible n : ℚ) := by
        exact_mod_cast (two_mul_totalPossible n).symm
      rw [hDD]
      calc 2 * (kEdges W d : ℚ)
          ≤ 2 * (targetUsed W d * (totalPossible n : ℚ)) := by linarith
        _ = targetUsed W d * (2 * (totalPossible n : ℚ)) := by ring

/-- Witness for the amended C2 at the concrete matrix `twoMat` with `d = 1`. -/
theorem ttd_density_bound_witness :
    ((2 : ℕ) ≤ 2 ∧ IsClean twoMat ∧ (0 : ℚ) < 1 ∧ (1 : ℚ) ≤ 1 ∧
      (((posList twoMat).map (fun p => twoMat p.1 p.2)).Nodup ∧
        1 ≤ ⌊min 1 (density twoMat) * (totalPossible 2 : ℚ)⌋)) ∧
    density (threshold_to_target_density twoMat 1 0).1 ≤ min 1 (density twoMat) := by
  have hnum : numPosEdges twoMat = 1 := by decide
  have hden : density twoMat = 1 := by
    rw [density, if_neg (by norm_num), hnum]
    norm_num
  have hfloor : 1 ≤ ⌊min 1 (density twoMat) * (totalPossible 2 : ℚ)⌋ := by
    rw [hden]
    norm_num [totalPossible]
  exact ⟨⟨by norm_num, by decide, by norm_num, by norm_num, by decide, hfloor⟩,
    (ttd_density_bound twoMat 1 (by norm_num) (by decide) (by norm_num)
      (by norm_num)).2 ⟨by decide, hfloor⟩⟩

/-- Counterexample to C2 as stated: on the clean 2×2 matrix with one positive
edge and target density 2/5, the clamp `k_edges = max(1, …)` keeps the edge,
so the result has density 1 > min(2/5, available density). -/
theorem ttd_density_counterexample :
    ¬ (density (threshold_to_target_density twoMat (2/5) 0).1 ≤
        min (2/5) (density twoMat)) := by
  have hnum : numPosEdges twoMat = 1 := by decide
  have hden : density twoMat = 1 := by
    rw [density, if_neg (by norm_num), hnum]
    norm_num
  have havail : availDensity twoMat = 1 := by
    rw [availDensity, hnum]
    norm_num
  have htu : targetUsed twoMat (2/5) = 2/5 := by
    rw [targetUsed, havail]
    norm_num
  have htp : totalPossible 2 = 1 := by decide
  have hkE : kEdges twoMat (2/5) = 1 := by
    rw [kEdges, htu, htp, hnum]
    norm_num
  have hkth : kthVal twoMat (2/5) = 2 := by
    rw [kthVal, hkE, hnum]
    decide
  have hres1 : (threshold_to_target_density twoMat (2/5) 0).1 =
      applyMask twoMat (ttdMask twoMat (2/5) 0) := by
    simp only [threshold_to_target_density]
    rw [if_neg (show ¬ ((2 : ℕ) < 2) by norm_num),
      if_neg (show ¬ (numPosEdges twoMat = 0) by rw [hnum]; norm_num),
      if_neg (show ¬ (targetUsed twoMat (2/5) ≤ 0) by rw [htu]; norm_num)]
  have hmask : ttdMask twoMat (2/5) 0 = baseMask twoMat 2 := by
    rw [ttdMask, if_pos rfl, hkth]
  have hdU : density (applyMask twoMat (ttdMask twoMat (2/5) 0)) = 1 := by
    rw [hmask]
    have hposU : posList (applyMask twoMat (baseMask twoMat 2)) = keepList twoMat 2 :=
      posList_applyMask_baseMask twoMat 2 (by decide)
    have hkl : (keepList twoMat 2).length = 1 := by decide
    rw [density, if_neg (by norm_num), numPosEdges, hposU, hkl]
    norm_num
  rw [hres1, hdU, hden]
  norm_num

theorem mem_nbrList {n : ℕ} (W : Mat n) (i j : Fin n) :
    j ∈ nbrList W i ↔ j ≠ i ∧ 0 < W i j := by
  rw [nbrList, List.mem_filter, decide_eq_true_eq]
  simp [List.mem_finRange]

theorem nodup_nbrList {n : ℕ} (W : Mat n) (i : Fin n) : (nbrList W i).Nodup :=
  (List.nodup_finRange n).filter _

theorem mem_posList_iff {n : ℕ} (W : Mat n) (p : Fin n × Fin n) :
    p ∈ posList W ↔ p.1 < p.2 ∧ 0 < W p.1 p.2 := by
  rw [posList, List.mem_filter, decide_eq_true_eq, mem_upperList]

theorem ttd_eq_main {n : ℕ} (W : Mat n) (d : ℚ) (k : ℕ) (hn : ¬ n < 2)
    (hm : ¬ numPosEdges W = 0) (ht : ¬ targetUsed W d ≤ 0) :
    threshold_to_target_density W d k =
      (applyMask W (ttdMask W d k), targetUsed W d, availDensity W) := by
  rw [threshold_to_target_density, if_neg hn, if_neg hm, if_neg ht]

theorem knnStep_mono {n : ℕ} (W : Mat n) (k : ℕ) (M : Fin n → Fin n → Bool)
    (j a b : Fin n) (h : M a b = true) : knnStep W k M j a b = true := by
  simp [knnStep, h]

theorem knnLoop_mono_list {n : ℕ} (W : Mat n) (k : ℕ) :
    ∀ (l : List (Fin n)) (M : Fin n → Fin n → Bool) (a b : Fin n),
      M a b = true → (l.foldl (knnStep W k) M) a b = true := by
  intro l
  induction l with
  | nil => intro M a b h; exact h
  | cons j rest ih =>
      intro M a b h
      exact ih (knnStep W k M j) a b (knnStep_mono W k M j a b h)

theorem knnLoop_sets_list {n : ℕ} (W : Mat n) (k : ℕ) (i t : Fin n)
    (ht : t ∈ topkNbrs W k i) :
    ∀ (l : List (Fin n)) (M : Fin n → Fin n → Bool), i ∈ l →
      (l.foldl (knnStep W k) M) i t = true := by
  intro l
  induction l with
  | nil => intro M h; cases h
  | cons j rest ih =>
      intro M hmem
      rcases List.mem_cons.mp hmem with heq | htail
      · have hstep : knnStep W k M j i t = true := by
          rw [← heq]
          simp [knnStep, ht]
        exact knnLoop_mono_list W k rest _ i t hstep
      · exact ih _ htail

theorem knnLoop_sets {n : ℕ} (W : Mat n) (k : ℕ) (i t : Fin n)
    (ht : t ∈ topkNbrs W k i) (M : Fin n → Fin n → Bool) :
    knnLoop W k M i t = true :=
  knnLoop_sets_list W k i t ht (List.finRange n) M (List.mem_finRange i)

theorem applyMask_pos {n : ℕ} (W : Mat n) (M : Fin n → Fin n → Bool) {i t : Fin n}
    (hne : ¬ i = t) (hM : M i t = true) (hpos : 0 < W i t) :
    0 < applyMask W M i t := by
  rw [applyMask, if_neg hne, hM]
  calc (0 : ℚ) < W i t := hpos
    _ = (if true = true then W i t else 0) := by simp
    _ ≤ _ := le_max_left _ _

theorem topkNbrs_sub {n : ℕ} (W : Mat n) (k : ℕ) (i t : Fin n)
    (ht : t ∈ topkNbrs W k i) : t ∈ nbrList W i := by
  have hsub : t ∈ nbrByWeight W i := List.mem_of_mem_take ht
  exact (List.perm_insertionSort _ _).mem_iff.mp hsub

theorem length_topkNbrs {n : ℕ} (W : Mat n) (k : ℕ) (i : Fin n) :
    (topkNbrs W k i).length = min k (nbrList W i).length := by
  rw [topkNbrs, List.length_take]
  have hlen : (nbrByWeight W i).length = (nbrList W i).length :=
    (List.perm_insertionSort _ _).length_eq
  omega

theorem nodup_topkNbrs {n : ℕ} (W : Mat n) (k : ℕ) (i : Fin n) :
    (topkNbrs W k i).Nodup := by
  have hnd : (nbrByWeight W i).Nodup :=
    (List.perm_insertionSort _ _).nodup_iff.mpr (nodup_nbrList W i)
  exact (List.take_sublist _ _).nodup hnd

/-- C4: with a k-NN backbone (`knn_k = k ≥ 1`) and a positive target density,
every node `i` with at least one strictly positive off-diagonal neighbor keeps
at least `min(k, #neighbors)` strictly positive incident edges in the
thresholded matrix, namely to a set of its heaviest neighbors. -/
theorem ttd_knn_backbone {n : ℕ} (W : Mat n) (d : ℚ) (k : ℕ)
    (hW : IsClean W) (hd0 : 0 < d) (hk : 1 ≤ k) (i : Fin n)
    (hnb : nbrList W i ≠ []) :
    ∃ S : Finset (Fin n),
      (∀ t ∈ S, t ≠ i ∧ 0 < W i t) ∧
      S.card = min k (nbrList W i).length ∧
      (∀ t ∈ S, 0 < (threshold_to_target_density W d k).1 i t) ∧
      (∀ t ∈ S, ∀ s : Fin n, s ≠ i → 0 < W i s → s ∉ S → W i s ≤ W i t) := by
  obtain ⟨t0, ht0⟩ := List.exists_mem_of_ne_nil _ hnb
  have ht0p := (mem_nbrList W i t0).mp ht0
  have hn : 2 ≤ n := by
    by_contra hlt
    push_neg at hlt
    interval_cases n
    · exact i.elim0
    · exact ht0p.1 (Subsingleton.elim t0 i)
  have hn2 : ¬ n < 2 := not_lt.mpr hn
  have hm : ¬ numPosEdges W = 0 := by
    intro h0
    have hnil : posList W = [] := List.length_eq_zero.mp h0
    by_cases hlt : i < t0
    · have : (i, t0) ∈ posList W :=
        (mem_posList_iff W (i, t0)).mpr ⟨hlt, ht0p.2⟩
      rw [hnil] at this
      cases this
    · have hlt2 : t0 < i := lt_of_le_of_ne (not_lt.mp hlt) ht0p.1
      have : (t0, i) ∈ posList W :=
        (mem_posList_iff W (t0, i)).mpr ⟨hlt2, by rw [← hW.1 i t0]; exact ht0p.2⟩
      rw [hnil] at this
      cases this
  have hDnat : 2 ≤ n * (n - 1) := by
    have h1 : 1 ≤ n - 1 := by omega
    calc 2 = 2 * 1 := rfl
      _ ≤ n * (n - 1) := Nat.mul_le_mul hn h1
  have hD0 : (0 : ℚ) < ((n * (n - 1) : ℕ) : ℚ) := by
    have h2 : (2 : ℚ) ≤ ((n * (n - 1) : ℕ) : ℚ) := by exact_mod_cast hDnat
    linarith
  have havail : 0 < availDensity W := by
    rw [availDensity]
    apply div_pos _ hD0
    have hm1 : 1 ≤ numPosEdges W := Nat.one_le_iff_ne_zero.mpr hm
    have : (1 : ℚ) ≤ (numPosEdges W : ℚ) := by exact_mod_cast hm1
    linarith
  have htu : ¬ targetUsed W d ≤ 0 := not_le.mpr (lt_min hd0 havail)
  have hres := ttd_eq_main W d k hn2 hm htu
  have hmask : ttdMask W d k = knnLoop W k (baseMask W (kthVal W d)) := by
    rw [ttdMask, if_neg (by omega)]
  refine ⟨(topkNbrs W k i).toFinset, ?_, ?_, ?_, ?_⟩
  · intro t htS
    have := topkNbrs_sub W k i t (List.mem_toFinset.mp htS)
    exact (mem_nbrList W i t).mp this
  · rw [List.toFinset_card_of_nodup (nodup_topkNbrs W k i)]
    exact length_topkNbrs W k i
  · intro t htS
    have htl : t ∈ topkNbrs W k i := List.mem_toFinset.mp htS
    have hprops := (mem_nbrList W i t).mp (topkNbrs_sub W k i t htl)
    have hMtrue : ttdMask W d k i t = true := by
      rw [hmask]
      exact knnLoop_sets W k i t htl _
    rw [hres]
    exact applyMask_pos W _ (fun h => hprops.1 h.symm) hMtrue hprops.2
  · intro t htS s hsne hspos hsS
    have htl : t ∈ topkNbrs W k i := List.mem_toFinset.mp htS
    have hsl : s ∉ topkNbrs W k i := fun h => hsS (List.mem_toFinset.mpr h)
    have hsnbr : s ∈ nbrList W i := (mem_nbrList W i s).mpr ⟨hsne, hspos⟩
    have hsByW : s ∈ nbrByWeight W i := (List.perm_insertionSort _ _).mem_iff.mpr hsnbr
    have hsplit := List.take_append_drop (min k (nbrList W i).length) (nbrByWeight W i)
    have hsdrop : s ∈ (nbrByWeight W i).drop (min k (nbrList W i).length) := by
      rcases (List.mem_append.mp (by rw [hsplit]; exact hsByW)) with h | h
      · exact absurd h hsl
      · exact h
    have hsorted : List.Pairwise (fun a b : Fin n => W i b ≤ W i a) (nbrByWeight W i) :=
      List.sorted_insertionSort _ _
    have hpw : List.Pairwise (fun a b : Fin n => W i b ≤ W i a)
        ((nbrByWeight W i).take (min k (nbrList W i).length) ++
          (nbrByWeight W i).drop (min k (nbrList W i).length)) := by
      rw [hsplit]
      exact hsorted
    exact (List.pairwise_append.mp hpw).2.2 t htl s hsdrop

/-- Witness for C4 at the concrete clean matrix `twoMat`, `d = 1/2`, `k = 1`,
node 0. -/
theorem ttd_knn_backbone_witness :
    (IsClean twoMat ∧ (0 : ℚ) < 1/2 ∧ 1 ≤ 1 ∧ nbrList twoMat 0 ≠ []) ∧
    (∃ S : Finset (Fin 2),
      (∀ t ∈ S, t ≠ 0 ∧ 0 < twoMat 0 t) ∧
      S.card = min 1 (nbrList twoMat 0).length ∧
      (∀ t ∈ S, 0 < (threshold_to_target_density twoMat (1/2) 1).1 0 t) ∧
      (∀ t ∈ S, ∀ s : Fin 2, s ≠ 0 → 0 < twoMat 0 s → s ∉ S →
        twoMat 0 s ≤ twoMat 0 t)) :=
  ⟨⟨by decide, by norm_num, le_refl 1, by decide⟩,
   ttd_knn_backbone twoMat (1/2) 1 (by decide) (by norm_num) (le_refl 1) 0 (by decide)⟩

theorem mem_compSet {n : ℕ} (W : Mat n) (i j : Fin n) :
    j ∈ compSet W i ↔ (posGraph W).Reachable i j := by
  rw [compSet, Finset.mem_filter]
  simp

theorem reachWithin_compSet {n : ℕ} (W : Mat n) {i a b : Fin n}
    (ha : (posGraph W).Reachable i a)
    (hab : Relation.ReflTransGen (posGraph W).Adj a b) :
    ReachWithin W (compSet W i) a b := by
  induction hab with
  | refl => exact Relation.ReflTransGen.refl
  | tail hac hcb ih =>
      rename_i c b'
      have hrc : (posGraph W).Reachable a c :=
        (SimpleGraph.reachable_iff_reflTransGen a c).mpr hac
      have hcmem : c ∈ compSet W i := (mem_compSet W i c).mpr (ha.trans hrc)
      have hbmem : b' ∈ compSet W i :=
        (mem_compSet W i b').mpr ((ha.trans hrc).trans hcb.reachable)
      exact ih.tail ⟨hcmem, hbmem, hcb⟩

/-- C3 (amended): on a cleaned matrix whose positive graph has at least one
edge, the kept index set is a connected component of maximal cardinality, the
induced subgraph is connected, and `W_gcc` is the corresponding submatrix of
`W`.  (With no edges the function returns the whole matrix unchanged, even
when it is disconnected.) -/
theorem largest_component_spec {n : ℕ} (W : Mat n) (_hW : IsClean W)
    (hedge : hasPosEdge W) :
    (∃ i, lcsIdx W = compSet W i) ∧
    (∀ j, (compSet W j).card ≤ (lcsIdx W).card) ∧
    (∀ a ∈ lcsIdx W, ∀ b ∈ lcsIdx W, ReachWithin W (lcsIdx W) a b) ∧
    (∀ a b : Fin (lcsList W).length,
      lcsMat W a b = W ((lcsList W).get a) ((lcsList W).get b)) := by
  obtain ⟨p, hp⟩ := hedge
  have hne : Nonempty (Fin n) := ⟨p.1⟩
  by_cases hnc : numComponents W ≤ 1
  · have hall : ∀ a b : Fin n, (posGraph W).Reachable a b := by
      intro a b
      have hsub : Subsingleton (posGraph W).ConnectedComponent :=
        Fintype.card_le_one_iff_subsingleton.mp hnc
      have := @Subsingleton.elim _ hsub ((posGraph W).connectedComponentMk a)
        ((posGraph W).connectedComponentMk b)
      exact (SimpleGraph.ConnectedComponent.eq).mp this
    have hidx : lcsIdx W = Finset.univ := by
      rw [lcsIdx, if_neg (not_not_intro ⟨p, hp⟩), if_pos hnc]
    refine ⟨⟨p.1, ?_⟩, ?_, ?_, fun a b => rfl⟩
    · rw [hidx]
      ext j
      simp [mem_compSet, hall p.1 j]
    · intro j
      rw [hidx]
      exact Finset.card_le_univ _
    · intro a _ b _
      have hr := (SimpleGraph.reachable_iff_reflTransGen a b).mp (hall a b)
      rw [hidx]
      refine Relation.ReflTransGen.mono ?_ hr
      intro x y hxy
      exact ⟨Finset.mem_univ x, Finset.mem_univ y, hxy⟩
  · obtain ⟨i0, _, hmax⟩ := Finset.exists_max_image Finset.univ
      (fun i => (compSet W i).card) Finset.univ_nonempty
    have hP : ∀ j, (compSet W j).card ≤ (compSet W i0).card :=
      fun j => hmax j (Finset.mem_univ j)
    have hfind : ∃ i, gccRoot W = some i := by
      cases hroot : gccRoot W with
      | some i => exact ⟨i, rfl⟩
      | none =>
          exfalso
          rw [gccRoot, List.find?_eq_none] at hroot
          have hcontra := hroot i0 (List.mem_finRange i0)
          simp only [decide_eq_true_eq] at hcontra
          exact hcontra hP
    obtain ⟨ir, hir⟩ := hfind
    have hPir : ∀ j, (compSet W j).card ≤ (compSet W ir).card := by
      have := List.find?_some hir
      simpa using this
    have hidx : lcsIdx W = compSet W ir := by
      rw [lcsIdx, if_neg (not_not_intro ⟨p, hp⟩), if_neg hnc, hir]
    refine ⟨⟨ir, hidx⟩, ?_, ?_, fun a b => rfl⟩
    · intro j
      rw [hidx]
      exact hPir j
    · intro a ha b hb
      rw [hidx] at ha hb ⊢
      have hra : (posGraph W).Reachable ir a := (mem_compSet W ir a).mp ha
      have hrb : (posGraph W).Reachable ir b := (mem_compSet W ir b).mp hb
      have hab : Relation.ReflTransGen (posGraph W).Adj a b :=
        (SimpleGraph.reachable_iff_reflTransGen a b).mp (hra.symm.trans hrb)
      exact reachWithin_compSet W hra hab

/-- Counterexample to C3 as stated: on the edgeless 2-node matrix the
function returns all nodes, which is not a connected component (the
components are the two singletons), and the induced graph is disconnected. -/
theorem largest_component_counterexample :
    lcsIdx zeroMat2 = Finset.univ ∧
    (¬ ∃ i : Fin 2, lcsIdx zeroMat2 = compSet zeroMat2 i) ∧
    ¬ ReachWithin zeroMat2 (lcsIdx zeroMat2) 0 1 := by
  have hnoadj : ∀ x y : Fin 2, ¬ posAdj zeroMat2 x y := by decide
  have hnoedge : ¬ hasPosEdge zeroMat2 := by
    intro hcontra
    obtain ⟨q, hq⟩ := hcontra
    exact hnoadj q.1 q.2 hq
  have hidx : lcsIdx zeroMat2 = Finset.univ := by
    rw [lcsIdx, if_pos hnoedge]
  have hreach_eq : ∀ i j : Fin 2, (posGraph zeroMat2).Reachable i j → i = j := by
    intro i j h
    have hr := (SimpleGraph.reachable_iff_reflTransGen i j).mp h
    induction hr with
    | refl => rfl
    | tail _ hadj _ => exact absurd hadj (hnoadj _ _)
  have hcomp : ∀ i : Fin 2, compSet zeroMat2 i = {i} := by
    intro i
    ext j
    rw [mem_compSet, Finset.mem_singleton]
    constructor
    · intro h
      exact (hreach_eq i j h).symm
    · intro h
      rw [h]
  refine ⟨hidx, ?_, ?_⟩
  · intro hex
    obtain ⟨i, hi⟩ := hex
    rw [hidx, hcomp i] at hi
    have hcard := congrArg Finset.card hi
    simp at hcard
  · intro hr
    have hplain : Relation.ReflTransGen (posAdj zeroMat2) 0 1 :=
      Relation.ReflTransGen.mono (fun x y hxy => hxy.2.2) hr
    have : (0 : Fin 2) = 1 :=
      hreach_eq 0 1 ((SimpleGraph.reachable_iff_reflTransGen 0 1).mpr hplain)
    exact absurd this (by decide)

/-- Witness for the amended C3 at the concrete connected matrix `twoMat`. -/
theorem largest_component_spec_witness :
    (IsClean twoMat ∧ hasPosEdge twoMat) ∧
      (∃ i, lcsIdx twoMat = compSet twoMat i) :=
  ⟨⟨by decide, by decide⟩,
   (largest_component_spec twoMat (by decide) (by decide)).1⟩

theorem symmZeroDiag_applyMask {n : ℕ} (W : Mat n) (M : Fin n → Fin n → Bool) :
    SymmZeroDiag (applyMask W M) := by
  constructor
  · intro i j
    rw [applyMask, applyMask]
    by_cases hij : i = j
    · subst hij
      rfl
    · rw [if_neg hij, if_neg (show ¬ j = i from fun h => hij h.symm), max_comm]
  · intro i
    rw [applyMask, if_pos rfl]

/-- C6: each preprocessing operation returns a symmetric zero-diagonal matrix
when given one: proportional thresholding, density-target thresholding with
any `knn_k`, weight normalization, and giant-component restriction. -/
theorem preprocessing_preserves_symm_zero_diag {n : ℕ} (W : Mat (n + 1))
    (p : Option ℚ) (d : ℚ) (k : ℕ) (hW : SymmZeroDiag W) :
    SymmZeroDiag (threshold_proportional W p) ∧
    SymmZeroDiag (threshold_to_target_density W d k).1 ∧
    SymmZeroDiag (maybe_normalize W true) ∧
    SymmZeroDiag (lcsMat W) := by
  refine ⟨?_, ?_, ?_, ?_⟩
  · cases p with
    | none => exact hW
    | some pv =>
        rw [threshold_proportional]
        split
        · exact ⟨fun i j => rfl, fun i => rfl⟩
        · constructor
          · intro i j
            dsimp only
            by_cases hij : i = j
            · subst hij
              rfl
            · rw [if_neg hij, if_neg (show ¬ j = i from fun h => hij (Eq.symm h)),
                max_comm]
          · intro i
            simp
  · rw [threshold_to_target_density]
    split
    · exact ⟨fun i j => rfl, fun i => rfl⟩
    · split
      · exact ⟨fun i j => rfl, fun i => rfl⟩
      · split
        · exact ⟨fun i j => rfl, fun i => rfl⟩
        · exact symmZeroDiag_applyMask W _
  · rw [maybe_normalize]
    simp only [if_true]
    split
    · constructor
      · intro i j
        show W i j / matMax W = W j i / matMax W
        rw [hW.1 i j]
      · intro i
        show W i i / matMax W = 0
        rw [hW.2 i, zero_div]
    · exact hW
  · constructor
    · intro a b
      exact hW.1 _ _
    · intro a
      exact hW.2 _

/-- Witness for C6 at the concrete clean matrix `twoMat`. -/
theorem preprocessing_preserves_witness :
    SymmZeroDiag twoMat ∧
      (SymmZeroDiag (threshold_proportional twoMat (some (1/2))) ∧
       SymmZeroDiag (threshold_to_target_density twoMat (1/2) 1).1 ∧
       SymmZeroDiag (maybe_normalize twoMat true) ∧
       SymmZeroDiag (lcsMat twoMat)) :=
  ⟨by decide,
   preprocessing_preserves_symm_zero_diag twoMat (some (1/2)) (1/2) 1 (by decide)⟩

end ConnectomeMS
